import Mathlib

/-!
# argoos: `apiutils/actions.go`

A shallow embedding of the decision-and-dispatch code of `apiutils/actions.go`
(version parsing, policy decision, image matching, event filtering) together
with the parts of the Go standard library it calls (`strings.Split`,
`strconv.Atoi`, `strings.TrimSpace`, the regular expression `:[^:]*$`).

Go strings are modelled as lists of characters, Go `int` as `Int` clamped to
64 bits where the library clamps.
-/

set_option linter.dupNamespace false

namespace Argoos

/-- A Go string, as the list of its characters. -/
abbrev GoString := List Char

/-! ## Standard library: `strings.Split`, `strconv.Atoi` -/

/-- Model of `strings.Split(s, sep)` for a one-character separator: the pieces
of `s` between the occurrences of `sep`; the result is never empty. -/
def Split (sep : Char) : GoString → List GoString
  | [] => [[]]
  | c :: cs =>
    if c = sep then [] :: Split sep cs
    else
      match Split sep cs with
      | [] => [[c]]
      | h :: t => (c :: h) :: t

/-- The two errors of package `strconv`. -/
inductive NumError where
  | ErrSyntax
  | ErrRange
  deriving DecidableEq, Repr

/-- Size in bits of a Go `int` (`strconv.IntSize`) on a 64-bit platform. -/
def IntSize : Nat := 64

/-- The largest `uint64`, `maxVal` of `ParseUint` for `bitSize` 64. -/
def maxUint64 : Nat := 2 ^ 64 - 1

/-- The loop of `strconv.ParseUint(s, 10, 64)`: `n` is the value read so far.
A character that is no decimal digit is a syntax error; a digit that takes the
value over `maxUint64` is a range error, reported as soon as it is read. -/
def ParseUintLoop (n : Nat) : GoString → Except NumError Nat
  | [] => .ok n
  | c :: cs =>
    if '0' ≤ c ∧ c ≤ '9' then
      let d := c.toNat - '0'.toNat
      if n ≥ maxUint64 / 10 + 1 then .error .ErrRange
      else
        let m := n * 10
        let n1 := (m + d) % 2 ^ 64
        if n1 < m ∨ n1 > maxUint64 then .error .ErrRange
        else ParseUintLoop n1 cs
    else .error .ErrSyntax

/-- Model of `strconv.ParseUint(s, 10, 64)`: the value and the error. On a
syntax error the value is 0, on a range error it is `maxUint64`. -/
def ParseUint (s : GoString) : Nat × Option NumError :=
  match s with
  | [] => (0, some .ErrSyntax)
  | _ =>
    match ParseUintLoop 0 s with
    | .ok n => (n, none)
    | .error .ErrSyntax => (0, some .ErrSyntax)
    | .error .ErrRange => (maxUint64, some .ErrRange)

/-- Model of `strconv.ParseInt(s, 10, 0)`: an optional sign, then `ParseUint`.
A syntax error gives 0; a value out of the range of `int` gives the nearest
bound together with a range error. -/
def ParseInt (s : GoString) : Int × Option NumError :=
  match s with
  | [] => (0, some .ErrSyntax)
  | c :: cs =>
    let neg := c = '-'
    let body := if c = '+' ∨ c = '-' then cs else s
    match ParseUint body with
    | (_, some .ErrSyntax) => (0, some .ErrSyntax)
    | (un, _) =>
      let cutoff : Nat := 2 ^ (IntSize - 1)
      if ¬ neg ∧ un ≥ cutoff then (((cutoff - 1 : Nat) : Int), some .ErrRange)
      else if neg ∧ un > cutoff then (-(cutoff : Int), some .ErrRange)
      else (if neg then -(un : Int) else (un : Int), none)

/-- Model of `strconv.Atoi`: `ParseInt(s, 10, 0)` converted to `int`. -/
def Atoi (s : GoString) : Int × Option NumError := ParseInt s

/-! ## `getVersion` -/

/-- The `switch len(v)` of `getVersion` with its fallthroughs: the components
are padded with `"0"` up to three. -/
def padVersion (v : List GoString) : List GoString :=
  match v.length with
  | 0 => ((v ++ ["0".toList]) ++ ["0".toList]) ++ ["0".toList]
  | 1 => (v ++ ["0".toList]) ++ ["0".toList]
  | 2 => v ++ ["0".toList]
  | _ => v

/-- The slice `version` built by the loop of `getVersion`: the value returned
by `strconv.Atoi` for every component, its error discarded. -/
def versionSlice (a : GoString) : List Int :=
  (padVersion (Split '.' a)).map (fun i => (Atoi i).1)

/-- Embedding of `getVersion`: `version[0], version[1], version[2]`; an index
out of range (a Go panic) is `none`. -/
def getVersion (a : GoString) : Option (Int × Int × Int) :=
  match (versionSlice a)[0]?, (versionSlice a)[1]?, (versionSlice a)[2]? with
  | some x, some y, some z => some (x, y, z)
  | _, _, _ => none

/-! ## Standard library: `strings.TrimSpace`, the regular expression -/

/-- Model of `unicode.IsSpace`: the white space characters of Unicode. -/
def IsSpace (c : Char) : Bool :=
  let n := c.toNat
  (9 ≤ n && n ≤ 13) || n == 32 || n == 0x85 || n == 0xA0 || n == 0x1680 ||
  (0x2000 ≤ n && n ≤ 0x200A) || n == 0x2028 || n == 0x2029 || n == 0x202F ||
  n == 0x205F || n == 0x3000

/-- Model of `strings.TrimSpace`: leading and trailing white space removed. -/
def TrimSpace (s : GoString) : GoString :=
  ((s.dropWhile IsSpace).reverse.dropWhile IsSpace).reverse

/-- Model of `versionreg.ReplaceAllString(s, "")` for `versionreg = :[^:]*$`.
The scan goes from the left; a match starts at a `:` that is followed, up to
the end of the text, by characters other than `:`, and it is removed. -/
def versionregReplace : GoString → GoString
  | [] => []
  | c :: cs =>
    if c = ':' ∧ cs.all (fun x => x ≠ ':') then []
    else c :: versionregReplace cs

/-! ## Data model -/

/-- Modelled from the spec: the declaration of the event target (type `Event`
is declared outside `actions.go`); the fields the code reads. -/
structure Target where
  Repository : GoString
  Tag : GoString
  deriving DecidableEq, Repr

/-- Modelled from the spec: the declaration of the event request (type `Event`
is declared outside `actions.go`); the field the code reads and writes. -/
structure Request where
  Host : GoString
  deriving DecidableEq, Repr

/-- Modelled from the spec: type `Event`, declared outside `actions.go`, with
the fields `{ action, target: { repository, tag }, request: { host } }`. -/
structure Event where
  Action : GoString
  Target : Target
  Request : Request
  deriving DecidableEq, Repr

/-- Modelled from the spec: type `Events`, declared outside `actions.go`: the
envelope `{ events: [...] }`. -/
structure Events where
  Events : List Event
  deriving DecidableEq, Repr

/-- The part of `v1.Container` the code touches: the image reference; the name
stands for the fields that are carried along unchanged. -/
structure Container where
  Name : GoString
  Image : GoString
  deriving DecidableEq, Repr

/-- The part of `v1beta1.Deployment` the code touches: namespace, name, label
map (`GetLabels`) and `Spec.Template.Spec.Containers`. -/
structure Deployment where
  Namespace : GoString
  Name : GoString
  Labels : List (GoString × GoString)
  Containers : List Container
  deriving DecidableEq, Repr

/-- The constant `argoosLabel`. -/
def argoosLabel : GoString := "argoos.io/policy".toList

/-! ## `checkToUpdate` -/

/-- The `switch policy` of `checkToUpdate` (with its fallthroughs): the value
of `update` for one container, from the event tag, the event version
`(pvMajor, pvMinor, pvPatch)` and the container version `(vMajor, vMinor, vPatch)`. -/
def updateDecision (policy tag : GoString) (pv v : Int × Int × Int) : Bool :=
  let update := false
  if policy = "latest".toList then
    update || decide (tag = "latest".toList)
  else if policy = "all".toList then
    true
  else if policy = "major".toList then
    let update := decide (pv.1 > v.1)
    let update := update || (decide (pv.1 = v.1) && decide (pv.2.1 > v.2.1))
    update || (decide (pv.1 = v.1) && decide (pv.2.1 = v.2.1) && decide (pv.2.2 > v.2.2))
  else if policy = "minor".toList then
    let update := update || (decide (pv.1 = v.1) && decide (pv.2.1 > v.2.1))
    update || (decide (pv.1 = v.1) && decide (pv.2.1 = v.2.1) && decide (pv.2.2 > v.2.2))
  else if policy = "patch".toList then
    update || (decide (pv.1 = v.1) && decide (pv.2.1 = v.2.1) && decide (pv.2.2 > v.2.2))
  else
    update

/-- The image written by `checkToUpdate`:
`fmt.Sprintf("%s/%s:%s", event.Request.Host, event.Target.Repository, event.Target.Tag)`. -/
def newImage (event : Event) : GoString :=
  event.Request.Host ++ "/".toList ++ event.Target.Repository ++ ":".toList ++ event.Target.Tag

/-- The loop of `checkToUpdate` over the containers of `d`: `done` are the
containers already visited (rewritten), the second list those still to visit.
Every container is given the image of the event; when `update` is true a send
of `&d` on `toUpdate` is spawned, recorded here as one more entry of
`toUpdate`. The entry shows the deployment as it is when the send is spawned;
the code sends the pointer `&d`, whose container slice is the one the loops
keep writing into, so the receiver sees the containers as they are when it
reads them. The properties below do not rely on the containers an entry shows. -/
def checkToUpdateLoop (event : Event) (d : Deployment) (policy : GoString)
    (pv : Int × Int × Int) :
    List Container → List Container → List Deployment → Option (List Container × List Deployment)
  | done, [], toUpdate => some (done, toUpdate)
  | done, c :: rest, toUpdate =>
    match getVersion c.Image with
    | none => none
    | some v =>
      let update := updateDecision policy event.Target.Tag pv v
      let c1 : Container := { c with Image := newImage event }
      let containers := done ++ c1 :: rest
      let toUpdate1 :=
        if update then toUpdate ++ [{ d with Containers := containers }] else toUpdate
      checkToUpdateLoop event d policy pv (done ++ [c1]) rest toUpdate1

/-- Embedding of `checkToUpdate`: the deployment with its containers as the
loop leaves them (the slice is shared with the caller) and the sends spawned
on `toUpdate`; `none` stands for a panic. -/
def checkToUpdate (event : Event) (d : Deployment) (policy : GoString)
    (toUpdate : List Deployment) : Option (Deployment × List Deployment) :=
  match getVersion event.Target.Tag with
  | none => none
  | some pv =>
    match checkToUpdateLoop event d policy pv [] d.Containers toUpdate with
    | none => none
    | some (containers, toUpdate1) => some ({ d with Containers := containers }, toUpdate1)

/-! ## `getImpactedDeployments` -/

/-- The value of `eimage`: `fmt.Sprintf("%s/%s", event.Request.Host, event.Target.Repository)`. -/
def eimage (event : Event) : GoString :=
  event.Request.Host ++ "/".toList ++ event.Target.Repository

/-- The loop `for _, c := range i.Spec.Template.Spec.Containers` of
`getImpactedDeployments`, from index `idx` with `n` iterations left. Each
iteration reads the container at its index as it is then, since
`checkToUpdate` writes into the same slice. -/
def containersLoop (event : Event) (policy : GoString) :
    Nat → Nat → Deployment → List Deployment → Option (Deployment × List Deployment)
  | _, 0, i, toUpdate => some (i, toUpdate)
  | idx, n + 1, i, toUpdate =>
    match i.Containers[idx]? with
    | none => none
    | some c =>
      let dimage := versionregReplace c.Image
      if dimage = eimage event then
        match checkToUpdate event i policy toUpdate with
        | none => none
        | some (i1, toUpdate1) => containersLoop event policy (idx + 1) n i1 toUpdate1
      else containersLoop event policy (idx + 1) n i toUpdate

/-- The body of the loop over `d.Items` in `getImpactedDeployments`: a
deployment without the label `argoosLabel` is skipped. -/
def impactedDeployment (event : Event) (i : Deployment) (toUpdate : List Deployment) :
    Option (Deployment × List Deployment) :=
  match i.Labels.lookup argoosLabel with
  | none => some (i, toUpdate)
  | some policy => containersLoop event policy 0 i.Containers.length i toUpdate

/-- The loop over the items of one `DeploymentList`. -/
def impactedItems (event : Event) :
    List Deployment → List Deployment → Option (List Deployment × List Deployment)
  | [], toUpdate => some ([], toUpdate)
  | i :: items, toUpdate =>
    match impactedDeployment event i toUpdate with
    | none => none
    | some (i1, toUpdate1) =>
      match impactedItems event items toUpdate1 with
      | none => none
      | some (items1, toUpdate2) => some (i1 :: items1, toUpdate2)

/-- Embedding of `getImpactedDeployments`; `deployments` is what
`getDeployments()` returned (one list of items per namespace) and `toUpdate`
the sends already pending. The result is the deployments as the function
leaves them in memory and the sends pending on `toUpdate`. -/
def getImpactedDeployments (deployments : List (List Deployment)) (event : Event) :
    List Deployment → Option (List (List Deployment) × List Deployment)
  := fun toUpdate =>
  match deployments with
  | [] => some ([], toUpdate)
  | d :: ds =>
    match impactedItems event d toUpdate with
    | none => none
    | some (d1, toUpdate1) =>
      match getImpactedDeployments ds event toUpdate1 with
      | none => none
      | some (ds1, toUpdate2) => some (d1 :: ds1, toUpdate2)

/-! ## `getEvents` -/

/-- The errors `json.Unmarshal` reports: a syntax error of the payload or a
JSON value that does not fit the type of its field. -/
inductive JSONError where
  | SyntaxError
  | UnmarshalTypeError
  deriving DecidableEq, Repr

/-- What `json.Unmarshal(c, &events)` leaves behind: the value of `events`
after the call and the error it returned, if any. -/
structure Unmarshalled where
  events : Events
  err : Option JSONError
  deriving DecidableEq, Repr

/-- The loop of `getEvents` over `events.Events`; `reduced` is the slice built
so far. -/
def getEventsLoop (registry : GoString) : List Event → List Event → List Event
  | [], reduced => reduced
  | event :: rest, reduced =>
    let event1 : Event :=
      if (TrimSpace registry).length > 0 then
        { event with Request := { event.Request with Host := registry } }
      else event
    if event1.Action = "push".toList ∧ event1.Target.Tag.length > 0 then
      getEventsLoop registry rest (reduced ++ [event1])
    else getEventsLoop registry rest reduced

/-- Embedding of `getEvents`, from the outcome of `json.Unmarshal` on the
payload. -/
def getEvents (c : Unmarshalled) (registry : GoString) : Events :=
  let events := c.events
  match c.err with
  | some _ => events
  | none => { events with Events := getEventsLoop registry events.Events [] }

/-! ## The rollout worker: `rollout`, `StartRollout`, `StopRollout` -/

/-- The package state `StartRollout` and `StopRollout` act on: the flag
`rolloutStarted`, the number of goroutines running `rollout`, the number of
values sent on `stopRollout`, and the number of workers that took the branch
`case <-stopRollout` and returned. -/
structure RolloutState where
  rolloutStarted : Bool
  workers : Nat
  stopSent : Nat
  stopped : Nat
  deriving DecidableEq, Repr

/-- The initial package state: `rolloutStarted = false`, no worker, nothing
sent on `stopRollout`. -/
def RolloutState.init : RolloutState :=
  { rolloutStarted := false, workers := 0, stopSent := 0, stopped := 0 }

/-- Embedding of `StartRollout`: `go rollout()`; one more worker runs, the flag
is not written. -/
def StartRollout (s : RolloutState) : RolloutState :=
  { s with workers := s.workers + 1 }

/-- Embedding of `StopRollout`. When `rolloutStarted` is true a value is sent on
the unbuffered channel `stopRollout`: a running worker receives it, takes its
stop branch and returns, and the flag is then set to false; with no worker
running the send blocks, the call does not return and the flag is not cleared,
so the state stays as it is. When `rolloutStarted` is false nothing is sent and
the flag is set to false. -/
def StopRollout (s : RolloutState) : RolloutState :=
  if s.rolloutStarted then
    if s.workers > 0 then
      { rolloutStarted := false
        workers := s.workers - 1
        stopSent := s.stopSent + 1
        stopped := s.stopped + 1 }
    else s
  else { s with rolloutStarted := false }

/-- A call of one of the two exported rollout functions. -/
inductive RolloutCall where
  | StartRollout
  | StopRollout
  deriving DecidableEq, Repr

/-- The package state after a sequence of calls, made one after the other. -/
def runCalls : List RolloutCall → RolloutState → RolloutState
  | [], s => s
  | .StartRollout :: calls, s => runCalls calls (StartRollout s)
  | .StopRollout :: calls, s => runCalls calls (StopRollout s)

/-- What the `select` of `rollout` receives: a value on `stopRollout` or a
deployment on `toUpdate`. -/
inductive Received where
  | stop
  | update (u : Deployment)
  deriving DecidableEq, Repr

/-- The observable state of one worker running `rollout`: whether it has
returned, the calls `kube.Deployments(u.Namespace).Update(u)` it has issued
(one goroutine per item received, listed in the order received), and the
indices of the calls whose error was logged. -/
structure Worker where
  returned : Bool
  updates : List Deployment
  logged : List Nat
  deriving DecidableEq, Repr

/-- A worker that has just been started. -/
def Worker.init : Worker := { returned := false, updates := [], logged := [] }

/-- Embedding of the loop of `rollout` over the values its `select` receives.
The outcome of the orchestrator is a parameter: `failed k` tells whether the
`k`-th call of `Update` returns an error. A stop value makes the worker return;
a deployment gets one call of `Update`, whose error, if any, is logged. With
nothing left to receive the worker waits in `select`. -/
def rollout (failed : Nat → Bool) : List Received → Worker → Worker
  | [], w => w
  | .stop :: _, w => { w with returned := true }
  | .update u :: rest, w =>
    let k := w.updates.length
    let w1 : Worker :=
      { w with
        updates := w.updates ++ [u]
        logged := if failed k then w.logged ++ [k] else w.logged }
    rollout failed rest w1

/-! ## Definitions that follow the wording of the specification -/

/-- Component `k` of `s` split on `.`, a missing component being taken as
`"0"`: the components "padded with 0" of the specification of `getVersion`. -/
def component (s : GoString) (k : Nat) : GoString :=
  ((Split '.' s)[k]?).getD "0".toList

/-- The parser `p` of the specification of `getVersion`: the integer parsed,
and 0 when parsing fails (whichever error `strconv.Atoi` reports). -/
def parseOrZero (c : GoString) : Int :=
  match Atoi c with
  | (n, none) => n
  | (_, some _) => 0

/-- A decimal digit. -/
def isDigit (c : Char) : Bool := decide ('0' ≤ c ∧ c ≤ '9')

/-- The number a string of decimal digits denotes. -/
def digitsValue (ds : GoString) : Nat :=
  ds.foldl (fun n c => n * 10 + (c.toNat - '0'.toNat)) 0

/-- A non-empty string of decimal digits. -/
def isDigits (ds : GoString) : Bool := !ds.isEmpty && ds.all isDigit

/-- The integer a decimal literal denotes: an optional sign followed by one or
more digits; `none` for any other string. -/
def decimalInt : GoString → Option Int
  | [] => none
  | c :: cs =>
    if c = '-' then (if isDigits cs then some (-(digitsValue cs : Int)) else none)
    else if c = '+' then (if isDigits cs then some (digitsValue cs : Int) else none)
    else if isDigits (c :: cs) then some (digitsValue (c :: cs) : Int) else none

/-- The events kept by the filter of the specification: action `push` and a
non-empty tag. -/
def keepEvent (e : Event) : Bool :=
  decide (e.Action = "push".toList) && decide (e.Target.Tag ≠ [])

/-- The event with its request host replaced by `registry`. -/
def withHost (registry : GoString) (e : Event) : Event :=
  { e with Request := { e.Request with Host := registry } }

/-- The decision of `checkToUpdate` for one container of a deployment, with
the versions it computes: from the event tag and from the container image. -/
def containerDecision (event : Event) (policy : GoString) (c : Container) : Bool :=
  match getVersion event.Target.Tag, getVersion c.Image with
  | some pv, some v => updateDecision policy event.Target.Tag pv v
  | _, _ => false

/-- The qualifying containers of the specification: those whose image without
its tag is `host/repository` of the event and for which the decision is true. -/
def qualifying (event : Event) (policy : GoString) (d : Deployment) : List Container :=
  d.Containers.filter (fun c =>
    decide (versionregReplace c.Image = eimage event) && containerDecision event policy c)

/-- The container with its image replaced by the image of the event. -/
def withEventImage (event : Event) (c : Container) : Container :=
  { c with Image := event.Request.Host ++ "/".toList ++ event.Target.Repository ++
      ":".toList ++ event.Target.Tag }

/-- The lexicographic order on versions `(major, minor, patch)`: `current` is
strictly below `event`. -/
def versionLt (current event : Int × Int × Int) : Prop :=
  toLex (current.1, toLex (current.2.1, current.2.2)) <
    toLex (event.1, toLex (event.2.1, event.2.2))

/-- The policy values of the label contract. -/
def knownPolicies : List GoString :=
  ["latest".toList, "all".toList, "major".toList, "minor".toList, "patch".toList]

/-! ## Example data -/

/-- An event with the given action, host, repository and tag. -/
def mkEvent (action host repository tag : String) : Event :=
  { Action := action.toList, Target := { Repository := repository.toList, Tag := tag.toList },
    Request := { Host := host.toList } }

/-- A deployment `default/web` labelled with the given policy, with one
container per image. -/
def mkDeployment (policy : String) (images : List String) : Deployment :=
  { Namespace := "default".toList, Name := "web".toList,
    Labels := [(argoosLabel, policy.toList)],
    Containers := images.map (fun s => { Name := "c".toList, Image := s.toList }) }

/-! # Properties -/

/-! ## The policy decision -/

theorem updateDecision_patch (tag : GoString) (pv v : Int × Int × Int) :
    updateDecision "patch".toList tag pv v
      = (decide (pv.1 = v.1) && decide (pv.2.1 = v.2.1) && decide (pv.2.2 > v.2.2)) := by
  simp [updateDecision]

theorem updateDecision_minor (tag : GoString) (pv v : Int × Int × Int) :
    updateDecision "minor".toList tag pv v
      = ((decide (pv.1 = v.1) && decide (pv.2.1 > v.2.1)) ||
         (decide (pv.1 = v.1) && decide (pv.2.1 = v.2.1) && decide (pv.2.2 > v.2.2))) := by
  simp [updateDecision]

theorem updateDecision_major (tag : GoString) (pv v : Int × Int × Int) :
    updateDecision "major".toList tag pv v
      = (decide (pv.1 > v.1) || (decide (pv.1 = v.1) && decide (pv.2.1 > v.2.1)) ||
         (decide (pv.1 = v.1) && decide (pv.2.1 = v.2.1) && decide (pv.2.2 > v.2.2))) := by
  simp [updateDecision]

theorem updateDecision_latest (tag : GoString) (pv v : Int × Int × Int) :
    updateDecision "latest".toList tag pv v = decide (tag = "latest".toList) := by
  simp [updateDecision]

theorem updateDecision_all (tag : GoString) (pv v : Int × Int × Int) :
    updateDecision "all".toList tag pv v = true := by
  simp [updateDecision]

/-- C1: for the policies major, minor and patch the update decision of
checkToUpdate is the table of the specification. -/
theorem checkToUpdate_decision_table (tag : GoString) (eM em ep cM cm cp : Int) :
    (updateDecision "patch".toList tag (eM, em, ep) (cM, cm, cp) = true
      ↔ (eM = cM ∧ em = cm ∧ ep > cp)) ∧
    (updateDecision "minor".toList tag (eM, em, ep) (cM, cm, cp) = true
      ↔ ((eM = cM ∧ em > cm) ∨ (eM = cM ∧ em = cm ∧ ep > cp))) ∧
    (updateDecision "major".toList tag (eM, em, ep) (cM, cm, cp) = true
      ↔ (eM > cM ∨ ((eM = cM ∧ em > cm) ∨ (eM = cM ∧ em = cm ∧ ep > cp)))) ∧
    updateDecision "patch".toList tag (1, 2, 4) (1, 2, 3) = true ∧
    updateDecision "minor".toList tag (1, 2, 4) (1, 2, 3) = true ∧
    updateDecision "major".toList tag (1, 2, 4) (1, 2, 3) = true ∧
    updateDecision "patch".toList tag (2, 0, 0) (1, 2, 3) = false ∧
    updateDecision "major".toList tag (2, 0, 0) (1, 2, 3) = true := by
  simp only [updateDecision_patch, updateDecision_minor, updateDecision_major]
  refine ⟨?_, ?_, ?_, ?_, ?_, ?_, ?_, ?_⟩
  · simp [and_assoc]
  · simp [and_assoc]
  · simp [and_assoc, or_assoc]
  all_goals decide

/-! ## `strconv.Atoi` -/

theorem isDigit_bounds {c : Char} (h : isDigit c = true) : 48 ≤ c.toNat ∧ c.toNat ≤ 57 := by
  simp only [isDigit, decide_eq_true_eq] at h
  exact h

theorem foldl_digit_ge (ds : GoString) (n : Nat) :
    n ≤ ds.foldl (fun n c => n * 10 + (c.toNat - '0'.toNat)) n := by
  induction ds generalizing n with
  | nil => simp
  | cons c cs ih =>
    simp only [List.foldl_cons]
    exact le_trans (by omega) (ih _)

theorem zero_toNat : '0'.toNat = 48 := by decide

/-- The loop of `ParseUint` on digits whose value fits 64 bits returns that value. -/
theorem ParseUintLoop_ok (ds : GoString) (n : Nat) (hd : ds.all isDigit = true)
    (hv : ds.foldl (fun n c => n * 10 + (c.toNat - '0'.toNat)) n < 2 ^ 64) :
    ParseUintLoop n ds = .ok (ds.foldl (fun n c => n * 10 + (c.toNat - '0'.toNat)) n) := by
  induction ds generalizing n with
  | nil => simp [ParseUintLoop]
  | cons c cs ih =>
    simp only [List.all_cons, Bool.and_eq_true] at hd
    simp only [List.foldl_cons] at hv ⊢
    have hb := isDigit_bounds hd.1
    have hc : '0' ≤ c ∧ c ≤ '9' := by simpa [isDigit] using hd.1
    have hge := foldl_digit_ge cs (n * 10 + (c.toNat - '0'.toNat))
    have hlt : n * 10 + (c.toNat - '0'.toNat) < 2 ^ 64 := lt_of_le_of_lt hge hv
    rw [zero_toNat] at hlt
    have hmod : (n * 10 + (c.toNat - 48)) % 2 ^ 64 = n * 10 + (c.toNat - 48) :=
      Nat.mod_eq_of_lt hlt
    have h1 : ¬ (n ≥ maxUint64 / 10 + 1) := by
      simp only [maxUint64]; omega
    have h2 : ¬ (n * 10 + (c.toNat - 48) < n * 10 ∨ n * 10 + (c.toNat - 48) > maxUint64) := by
      simp only [maxUint64]; omega
    rw [ParseUintLoop, if_pos hc]
    simp only [zero_toNat, hmod, if_neg h1, if_neg h2]
    have := ih (n * 10 + (c.toNat - 48)) hd.2 (by rw [zero_toNat] at hv; exact hv)
    simpa [zero_toNat] using this

/-- The loop of `ParseUint` on digits whose value does not fit 64 bits reports
a range error. -/
theorem ParseUintLoop_range (ds : GoString) (n : Nat) (hd : ds.all isDigit = true)
    (hn : n < 2 ^ 64)
    (hv : 2 ^ 64 ≤ ds.foldl (fun n c => n * 10 + (c.toNat - '0'.toNat)) n) :
    ParseUintLoop n ds = .error .ErrRange := by
  induction ds generalizing n with
  | nil => simp at hv; omega
  | cons c cs ih =>
    simp only [List.all_cons, Bool.and_eq_true] at hd
    simp only [List.foldl_cons, zero_toNat] at hv
    have hb := isDigit_bounds hd.1
    have hc : '0' ≤ c ∧ c ≤ '9' := by simpa [isDigit] using hd.1
    rw [ParseUintLoop, if_pos hc]
    simp only [zero_toNat]
    by_cases h1 : n ≥ maxUint64 / 10 + 1
    · rw [if_pos h1]
    · rw [if_neg h1]
      by_cases h2 : n * 10 + (c.toNat - 48) < 2 ^ 64
      · have hmod : (n * 10 + (c.toNat - 48)) % 2 ^ 64 = n * 10 + (c.toNat - 48) :=
          Nat.mod_eq_of_lt h2
        have h3 : ¬ (n * 10 + (c.toNat - 48) < n * 10 ∨ n * 10 + (c.toNat - 48) > maxUint64) := by
          simp only [maxUint64]; omega
        simp only [hmod, if_neg h3]
        exact ih _ hd.2 h2 (by simpa [zero_toNat] using hv)
      · have h3 : (n * 10 + (c.toNat - 48)) % 2 ^ 64 < n * 10 ∨
            (n * 10 + (c.toNat - 48)) % 2 ^ 64 > maxUint64 := by
          left
          simp only [maxUint64] at h1
          omega
        simp only [if_pos h3]

/-- The loop of `ParseUint` never succeeds on a string with a character that is
no digit. -/
theorem ParseUintLoop_not_digits (ds : GoString) (n : Nat) (hd : ds.all isDigit = false) :
    ∃ e, ParseUintLoop n ds = .error e := by
  induction ds generalizing n with
  | nil => simp at hd
  | cons c cs ih =>
    rw [ParseUintLoop]
    by_cases hc : '0' ≤ c ∧ c ≤ '9'
    · have hcd : isDigit c = true := by simpa [isDigit] using hc
      have hcs : cs.all isDigit = false := by
        simpa [List.all_cons, hcd] using hd
      rw [if_pos hc]
      simp only
      split
      · exact ⟨_, rfl⟩
      · split
        · exact ⟨_, rfl⟩
        · exact ih _ hcs
    · rw [if_neg hc]; exact ⟨_, rfl⟩

theorem ParseUint_digits_ok (ds : GoString) (hd : isDigits ds = true)
    (hv : digitsValue ds < 2 ^ 64) : ParseUint ds = (digitsValue ds, none) := by
  simp only [isDigits, Bool.and_eq_true, Bool.not_eq_true', List.isEmpty_eq_false] at hd
  cases ds with
  | nil => simp at hd
  | cons c cs =>
    simp only [ParseUint]
    rw [ParseUintLoop_ok (c :: cs) 0 hd.2 hv]
    rfl

theorem ParseUint_digits_range (ds : GoString) (hd : isDigits ds = true)
    (hv : 2 ^ 64 ≤ digitsValue ds) : ParseUint ds = (maxUint64, some .ErrRange) := by
  simp only [isDigits, Bool.and_eq_true, Bool.not_eq_true', List.isEmpty_eq_false] at hd
  cases ds with
  | nil => simp at hd
  | cons c cs =>
    simp only [ParseUint]
    rw [ParseUintLoop_range (c :: cs) 0 hd.2 (by norm_num) hv]

theorem ParseUint_not_digits (ds : GoString) (hd : isDigits ds = false) :
    ParseUint ds = (0, some .ErrSyntax) ∨ ParseUint ds = (maxUint64, some .ErrRange) := by
  cases ds with
  | nil => left; rfl
  | cons c cs =>
    have hd1 : (c :: cs).all isDigit = false := by
      simpa [isDigits] using hd
    obtain ⟨e, he⟩ := ParseUintLoop_not_digits (c :: cs) 0 hd1
    simp only [ParseUint, he]
    cases e
    · left; rfl
    · right; rfl

/-- What `ParseUint` can return: a value without error, 0 with a syntax error,
or `maxUint64` with a range error. -/
theorem ParseUint_cases (ds : GoString) :
    (∃ n, ParseUint ds = (n, none)) ∨ ParseUint ds = (0, some .ErrSyntax) ∨
      ParseUint ds = (maxUint64, some .ErrRange) := by
  cases ds with
  | nil => right; left; rfl
  | cons c cs =>
    simp only [ParseUint]
    cases h : ParseUintLoop 0 (c :: cs) with
    | ok n => left; exact ⟨n, rfl⟩
    | error e =>
      cases e
      · right; left; rfl
      · right; right; rfl

/-- When `ParseUint` reports a syntax error on the string without its sign, so
does `ParseInt`, with the value 0. -/
theorem ParseInt_of_syntax_error (x : Char) (xs : GoString)
    (hu : ParseUint (if x = '+' ∨ x = '-' then xs else x :: xs) = (0, some .ErrSyntax)) :
    ParseInt (x :: xs) = (0, some .ErrSyntax) := by
  simp only [ParseInt, hu]

/-- When `ParseUint` reports no syntax error, `ParseInt` returns the value with
its sign, or the nearest bound of the 64-bit `int` with a range error. -/
theorem ParseInt_of_value (x : Char) (xs : GoString) (un : Nat) (e : Option NumError)
    (hu : ParseUint (if x = '+' ∨ x = '-' then xs else x :: xs) = (un, e))
    (he : e ≠ some .ErrSyntax) :
    ParseInt (x :: xs) =
      if x = '-' then
        (if un > 2 ^ 63 then (-(2 ^ 63 : Int), some .ErrRange) else (-(un : Int), none))
      else
        (if un ≥ 2 ^ 63 then ((2 ^ 63 - 1 : Int), some .ErrRange) else ((un : Int), none)) := by
  simp only [ParseInt, hu]
  have hcut : ((2 ^ (IntSize - 1) - 1 : Nat) : Int) = 2 ^ 63 - 1 := by simp [IntSize]
  have hcut2 : ((2 ^ (IntSize - 1) : Nat) : Int) = 2 ^ 63 := by simp [IntSize]
  have hcut3 : (2 ^ (IntSize - 1) : Nat) = 2 ^ 63 := by simp [IntSize]
  rcases e with _ | e
  · simp only [hcut, hcut2, hcut3]
    by_cases hx : x = '-' <;> by_cases h1 : un ≥ 2 ^ 63 <;> by_cases h2 : un > 2 ^ 63 <;>
      simp [hx, h1, h2]
  · cases e
    · exact absurd rfl he
    · simp only [hcut, hcut2, hcut3]
      by_cases hx : x = '-' <;> by_cases h1 : un ≥ 2 ^ 63 <;> by_cases h2 : un > 2 ^ 63 <;>
        simp [hx, h1, h2]

/-- A syntax error of `Atoi` comes with the value 0. -/
theorem Atoi_syntax_zero (c : GoString) (h : (Atoi c).2 = some .ErrSyntax) : (Atoi c).1 = 0 := by
  cases c with
  | nil => rfl
  | cons x xs =>
    rcases ParseUint_cases (if x = '+' ∨ x = '-' then xs else x :: xs) with ⟨n, hn⟩ | hn | hn
    · rw [Atoi, ParseInt_of_value x xs n none hn (by simp)] at h
      revert h; split_ifs <;> simp
    · rw [Atoi, ParseInt_of_syntax_error x xs hn]
    · rw [Atoi, ParseInt_of_value x xs _ _ hn (by simp)] at h
      revert h; split_ifs <;> simp

/-- A range error of `Atoi` comes with a bound of the 64-bit `int`. -/
theorem Atoi_range_bound (c : GoString) (h : (Atoi c).2 = some .ErrRange) :
    (Atoi c).1 = 2 ^ 63 - 1 ∨ (Atoi c).1 = -2 ^ 63 := by
  cases c with
  | nil => simp [Atoi, ParseInt] at h
  | cons x xs =>
    rcases ParseUint_cases (if x = '+' ∨ x = '-' then xs else x :: xs) with ⟨n, hn⟩ | hn | hn
    · rw [Atoi, ParseInt_of_value x xs n none hn (by simp)] at h ⊢
      revert h; split_ifs <;> simp
    · rw [Atoi, ParseInt_of_syntax_error x xs hn] at h
      simp at h
    · rw [Atoi, ParseInt_of_value x xs _ _ hn (by simp)] at h ⊢
      revert h; split_ifs <;> simp

/-- On a decimal literal `Atoi` returns the integer it denotes when it fits a
64-bit `int`, and otherwise the nearest bound with a range error. -/
theorem Atoi_decimalInt (c : GoString) (v : Int) (h : decimalInt c = some v) :
    Atoi c =
      if v ≥ 2 ^ 63 then ((2 ^ 63 - 1 : Int), some .ErrRange)
      else if v < -2 ^ 63 then (-(2 ^ 63 : Int), some .ErrRange)
      else (v, none) := by
  cases c with
  | nil => simp [decimalInt] at h
  | cons x xs =>
    simp only [decimalInt] at h
    have key : ∀ (body : GoString), isDigits body = true →
        (if x = '+' ∨ x = '-' then xs else x :: xs) = body →
        ParseInt (x :: xs) =
          if x = '-' then
            (if digitsValue body > 2 ^ 63 then (-(2 ^ 63 : Int), some .ErrRange)
              else (-(digitsValue body : Int), none))
          else
            (if digitsValue body ≥ 2 ^ 63 then ((2 ^ 63 - 1 : Int), some .ErrRange)
              else ((digitsValue body : Int), none)) := by
      intro body hd hb
      by_cases hv : digitsValue body < 2 ^ 64
      · have hu : ParseUint (if x = '+' ∨ x = '-' then xs else x :: xs)
            = (digitsValue body, none) := by rw [hb]; exact ParseUint_digits_ok body hd hv
        exact ParseInt_of_value x xs _ _ hu (by simp)
      · have hu : ParseUint (if x = '+' ∨ x = '-' then xs else x :: xs)
            = (maxUint64, some .ErrRange) := by
          rw [hb]; exact ParseUint_digits_range body hd (by omega)
        rw [ParseInt_of_value x xs _ _ hu (by simp)]
        have h1 : maxUint64 > 2 ^ 63 := by simp [maxUint64]
        have h2 : maxUint64 ≥ 2 ^ 63 := by simp [maxUint64]
        have h3 : digitsValue body > 2 ^ 63 := by omega
        have h4 : digitsValue body ≥ 2 ^ 63 := by omega
        simp only [h1, h2, h3, h4, if_true]
    by_cases hm : x = '-'
    · simp only [hm, if_true] at h
      by_cases hd : isDigits xs = true
      · simp only [hd, if_true, Option.some.injEq] at h
        rw [Atoi, key xs hd (by simp [hm]), if_pos hm, ← h]
        split_ifs <;> first | rfl | omega
      · simp [hd] at h
    · simp only [hm, if_false] at h
      by_cases hp : x = '+'
      · simp only [hp, if_true] at h
        by_cases hd : isDigits xs = true
        · simp only [hd, if_true, Option.some.injEq] at h
          rw [Atoi, key xs hd (by simp [hp]), if_neg hm, ← h]
          split_ifs <;> first | rfl | omega
        · simp [hd] at h
      · simp only [hp, if_false] at h
        by_cases hd : isDigits (x :: xs) = true
        · simp only [hd, if_true, Option.some.injEq] at h
          rw [Atoi, key (x :: xs) hd (by simp [hm, hp]), if_neg hm, ← h]
          split_ifs <;> first | rfl | omega
        · simp [hd] at h

/-- On a string that is no decimal literal `Atoi` reports an error. -/
theorem Atoi_not_decimalInt (c : GoString) (h : decimalInt c = none) :
    ∃ e, (Atoi c).2 = some e := by
  cases c with
  | nil => exact ⟨_, rfl⟩
  | cons x xs =>
    simp only [decimalInt] at h
    have key : ∀ (body : GoString), isDigits body = false →
        (if x = '+' ∨ x = '-' then xs else x :: xs) = body →
        ∃ e, (ParseInt (x :: xs)).2 = some e := by
      intro body hd hb
      rcases ParseUint_not_digits body hd with hu | hu
      · rw [← hb] at hu
        rw [ParseInt_of_syntax_error x xs hu]; exact ⟨_, rfl⟩
      · rw [← hb] at hu
        rw [ParseInt_of_value x xs _ _ hu (by simp)]
        have h1 : maxUint64 > 2 ^ 63 := by simp [maxUint64]
        have h2 : maxUint64 ≥ 2 ^ 63 := by simp [maxUint64]
        simp only [h1, h2, if_true]
        split_ifs <;> exact ⟨_, rfl⟩
    by_cases hm : x = '-'
    · simp only [hm, if_true] at h
      exact key xs (by simpa using h) (by simp [hm])
    · simp only [hm, if_false] at h
      by_cases hp : x = '+'
      · simp only [hp, if_true] at h
        exact key xs (by simpa using h) (by simp [hp])
      · simp only [hp, if_false] at h
        exact key (x :: xs) (by simpa using h) (by simp [hm, hp])

/-! ## `getVersion` -/

/-- The version slice has the values of `Atoi` on the first three components,
whatever the number of components. -/
theorem getVersion_eq (s : GoString) :
    getVersion s = some ((Atoi (component s 0)).1, (Atoi (component s 1)).1,
      (Atoi (component s 2)).1) := by
  unfold getVersion versionSlice component
  generalize Split '.' s = v
  rcases v with _ | ⟨a, _ | ⟨b, _ | ⟨c, rest⟩⟩⟩ <;> simp [padVersion]

theorem getElem?_of_take_eq {α : Type} (l1 l2 : List α) (n k : Nat) (hk : k < n)
    (h : l1.take n = l2.take n) : l1[k]? = l2[k]? := by
  have h1 : (l1.take n)[k]? = l1[k]? := List.getElem?_take_of_lt hk
  have h2 : (l2.take n)[k]? = l2[k]? := List.getElem?_take_of_lt hk
  rw [← h1, ← h2, h]

/-- A range error of `Atoi` comes with the bound of the 64-bit `int` on the side
of the sign: the least `int` when the string starts with a minus sign, the
greatest otherwise. -/
theorem Atoi_range_value (c : GoString) (h : (Atoi c).2 = some .ErrRange) :
    (Atoi c).1 = if c.head? = some '-' then -2 ^ 63 else 2 ^ 63 - 1 := by
  cases c with
  | nil => simp [Atoi, ParseInt] at h
  | cons x xs =>
    have hhead : (if (x :: xs).head? = some '-' then (-2 ^ 63 : Int) else 2 ^ 63 - 1)
        = if x = '-' then (-2 ^ 63 : Int) else 2 ^ 63 - 1 := by simp
    rw [hhead]
    rcases ParseUint_cases (if x = '+' ∨ x = '-' then xs else x :: xs) with ⟨n, hn⟩ | hn | hn
    · rw [Atoi, ParseInt_of_value x xs n none hn (by simp)] at h ⊢
      revert h; split_ifs <;> simp
    · rw [Atoi, ParseInt_of_syntax_error x xs hn] at h
      simp at h
    · rw [Atoi, ParseInt_of_value x xs _ _ hn (by simp)] at h ⊢
      revert h; split_ifs <;> simp

/-- C3 (as amended): getVersion returns the values of Atoi on the first three
components of the string split on '.', a missing component taken as "0"; Atoi
gives the integer a decimal literal denotes when it fits a 64-bit int and the
nearest bound of int, with a range error, when it does not; it gives 0 on a
syntax error, and on every range error the bound on the side of the sign;
components after the third have no influence. -/
theorem getVersion_components (s : GoString) :
    getVersion s = some ((Atoi (component s 0)).1, (Atoi (component s 1)).1,
      (Atoi (component s 2)).1) ∧
    (∀ c v, decimalInt c = some v → -2 ^ 63 ≤ v → v < 2 ^ 63 → Atoi c = (v, none)) ∧
    (∀ c v, decimalInt c = some v → 2 ^ 63 ≤ v → Atoi c = (2 ^ 63 - 1, some .ErrRange)) ∧
    (∀ c v, decimalInt c = some v → v < -2 ^ 63 → Atoi c = (-2 ^ 63, some .ErrRange)) ∧
    (∀ c, decimalInt c = none → ∃ e, (Atoi c).2 = some e) ∧
    (∀ c, (Atoi c).2 = none → (Atoi c).1 = parseOrZero c) ∧
    (∀ c, (Atoi c).2 = some .ErrSyntax → (Atoi c).1 = 0) ∧
    (∀ c, (Atoi c).2 = some .ErrRange →
      (Atoi c).1 = if c.head? = some '-' then -2 ^ 63 else 2 ^ 63 - 1) ∧
    (∀ t, (Split '.' t).take 3 = (Split '.' s).take 3 → getVersion t = getVersion s) ∧
    getVersion "2.a".toList = some (2, 0, 0) ∧
    getVersion "1.2.3.4".toList = some (1, 2, 3) := by
  refine ⟨getVersion_eq s, ?_, ?_, ?_, Atoi_not_decimalInt, ?_, Atoi_syntax_zero,
    Atoi_range_value, ?_, by decide, by decide⟩
  · intro c v h h1 h2
    rw [Atoi_decimalInt c v h, if_neg (by omega), if_neg (by omega)]
  · intro c v h h1
    rw [Atoi_decimalInt c v h, if_pos (by omega)]
  · intro c v h h1
    rw [Atoi_decimalInt c v h, if_neg (by omega), if_pos h1]
  · intro c h
    unfold parseOrZero
    rcases hA : Atoi c with ⟨n, e⟩
    rw [hA] at h
    simp only at h
    subst h
    rfl
  · intro t h
    rw [getVersion_eq, getVersion_eq]
    simp only [component, getElem?_of_take_eq _ _ 3 0 (by decide) h,
      getElem?_of_take_eq _ _ 3 1 (by decide) h, getElem?_of_take_eq _ _ 3 2 (by decide) h]

/-- C3, at concrete inputs: the string 1.2, the literal -12, and the literals
just above and just below the range of int. -/
theorem getVersion_components_witness :
    getVersion "1.2".toList = some (1, 2, 0) ∧ Atoi "-12".toList = (-12, none) ∧
    Atoi "9223372036854775808".toList = (2 ^ 63 - 1, some .ErrRange) ∧
    Atoi "-9223372036854775809".toList = (-2 ^ 63, some .ErrRange) :=
  ⟨(getVersion_components "1.2".toList).1.trans (by decide),
   (getVersion_components []).2.1 "-12".toList (-12) (by decide) (by decide) (by decide),
   (getVersion_components []).2.2.1 "9223372036854775808".toList 9223372036854775808
     (by decide) (by decide),
   (getVersion_components []).2.2.2.1 "-9223372036854775809".toList (-9223372036854775809)
     (by decide) (by decide)⟩

/-- C3 (as stated) fails: on a component that is out of the range of int, Atoi
reports an error and getVersion returns the bound of int, not 0. -/
theorem getVersion_range_error_not_zero :
    (Atoi "9223372036854775808".toList).2 = some .ErrRange ∧
    getVersion "9223372036854775808".toList = some (9223372036854775807, 0, 0) ∧
    getVersion "9223372036854775808".toList ≠
      some (parseOrZero (component "9223372036854775808".toList 0),
        parseOrZero (component "9223372036854775808".toList 1),
        parseOrZero (component "9223372036854775808".toList 2)) := by
  decide

/-! ## End to end on the example of the specification -/

/-- C2: on the workload labelled minor with the one container reg/app:1.0.0
and the push event for reg/app:1.1.0, getImpactedDeployments rewrites the image
to reg/app:1.1.0 but spawns no send on toUpdate: the current version is parsed
from the whole image string and comes out as (0,0,0). -/
theorem minor_bump_rewritten_not_enqueued :
    getVersion "reg/app:1.0.0".toList = some (0, 0, 0) ∧
    getVersion "1.1.0".toList = some (1, 1, 0) ∧
    getImpactedDeployments [[mkDeployment "minor" ["reg/app:1.0.0"]]]
        (mkEvent "push" "reg" "app" "1.1.0") []
      = some ([[mkDeployment "minor" ["reg/app:1.1.0"]]], []) := by
  decide

/-! ## `getEvents` -/

/-- The loop of `getEvents` appends to `reduced` the kept events, with the host
overridden when the registry is not blank. -/
theorem getEventsLoop_eq (registry : GoString) (evs reduced : List Event) :
    getEventsLoop registry evs reduced =
      reduced ++ (evs.filter keepEvent).map
        (fun e => if (TrimSpace registry).length > 0 then withHost registry e else e) := by
  induction evs generalizing reduced with
  | nil => simp [getEventsLoop]
  | cons e rest ih =>
    by_cases hr : (TrimSpace registry).length > 0 <;>
    by_cases ha : e.Action = "push".toList <;>
    by_cases ht : e.Target.Tag = [] <;>
    simp_all [getEventsLoop, keepEvent, withHost]

/-- The result of `TrimSpace` is not empty exactly when the string has a character that
is no white space. -/
theorem TrimSpace_length_pos_iff (s : GoString) :
    (TrimSpace s).length > 0 ↔ ∃ c ∈ s, IsSpace c = false := by
  have hnil : TrimSpace s = [] ↔ ∀ c ∈ s, IsSpace c = true := by
    unfold TrimSpace
    rw [List.reverse_eq_nil_iff, List.dropWhile_eq_nil_iff]
    constructor
    · intro h
      have hd : s.dropWhile IsSpace = [] := by
        by_contra hne
        have h1 := List.head_dropWhile_not IsSpace s hne
        have h2 := h ((s.dropWhile IsSpace).head hne) (by simp)
        rw [h2] at h1
        exact absurd h1 (by decide)
      exact List.dropWhile_eq_nil_iff.mp hd
    · intro h x hx
      have hd : s.dropWhile IsSpace = [] := List.dropWhile_eq_nil_iff.mpr h
      rw [hd] at hx
      simp at hx
  rw [gt_iff_lt, List.length_pos, ne_eq, hnil]
  push_neg
  simp

/-- C4: on a payload that decodes, the batch returned by getEvents is the
sub-list of the decoded events with action push and a non-empty tag, in payload
order (each with its host overridden when the registry is not blank). -/
theorem getEvents_filter (evs : List Event) (registry : GoString) :
    (getEvents ⟨⟨evs⟩, none⟩ registry).Events =
      (evs.filter keepEvent).map
        (fun e => if (TrimSpace registry).length > 0 then withHost registry e else e) ∧
    (getEvents ⟨⟨evs⟩, none⟩ []).Events = evs.filter keepEvent ∧
    List.Sublist (getEvents ⟨⟨evs⟩, none⟩ []).Events evs ∧
    List.Sublist ((getEvents ⟨⟨evs⟩, none⟩ registry).Events.map (fun e => (e.Action, e.Target)))
      (evs.map (fun e => (e.Action, e.Target))) ∧
    (∀ e ∈ (getEvents ⟨⟨evs⟩, none⟩ registry).Events,
      e.Action = "push".toList ∧ e.Target.Tag ≠ []) ∧
    getEvents ⟨⟨[mkEvent "pull" "h" "app" "v0", mkEvent "push" "h" "app" "",
        mkEvent "push" "h" "app" "v1"]⟩, none⟩ [] = ⟨[mkEvent "push" "h" "app" "v1"]⟩ := by
  have h1 : (getEvents ⟨⟨evs⟩, none⟩ registry).Events =
      (evs.filter keepEvent).map
        (fun e => if (TrimSpace registry).length > 0 then withHost registry e else e) := by
    simp [getEvents, getEventsLoop_eq]
  have h2 : (getEvents ⟨⟨evs⟩, none⟩ []).Events = evs.filter keepEvent := by
    simp [getEvents, getEventsLoop_eq, TrimSpace]
  refine ⟨h1, h2, ?_, ?_, ?_, by decide⟩
  · rw [h2]; exact List.filter_sublist evs
  · rw [h1, List.map_map]
    have hf : ((fun e : Event => (e.Action, e.Target)) ∘
        fun e => if (TrimSpace registry).length > 0 then withHost registry e else e)
        = fun e => (e.Action, e.Target) := by
      funext e
      by_cases hr : (TrimSpace registry).length > 0 <;> simp [hr, withHost]
    rw [hf]
    exact List.Sublist.map _ (List.filter_sublist evs)
  · intro e he
    rw [h1, List.mem_map] at he
    obtain ⟨e0, he0, rfl⟩ := he
    have hk := (List.mem_filter.mp he0).2
    simp only [keepEvent, Bool.and_eq_true, decide_eq_true_eq] at hk
    by_cases hr : (TrimSpace registry).length > 0 <;> simpa [hr, withHost] using hk

/-- C5 (as stated) fails: the override " " is not empty, yet the surviving
event keeps the host of the payload. -/
theorem getEvents_blank_registry_not_applied :
    (" ".toList).length > 0 ∧
    ∃ e ∈ (getEvents ⟨⟨[mkEvent "push" "h" "app" "v1"]⟩, none⟩ " ".toList).Events,
      e.Request.Host ≠ " ".toList := by
  decide

/-- C5 (as amended): on a payload that decodes, when the registry override has
a character that is no white space every event of the batch has the override as
its request host; when the override is empty or all white space every event of
the batch is an event of the payload, host included. -/
theorem getEvents_override (evs : List Event) (registry : GoString) :
    ((∃ c ∈ registry, IsSpace c = false) →
      ∀ e ∈ (getEvents ⟨⟨evs⟩, none⟩ registry).Events, e.Request.Host = registry) ∧
    ((∀ c ∈ registry, IsSpace c = true) →
      (getEvents ⟨⟨evs⟩, none⟩ registry).Events = evs.filter keepEvent ∧
      ∀ e ∈ (getEvents ⟨⟨evs⟩, none⟩ registry).Events, e ∈ evs) ∧
    (∀ e ∈ (getEvents ⟨⟨evs⟩, none⟩ []).Events, e ∈ evs) := by
  have h1 : (getEvents ⟨⟨evs⟩, none⟩ registry).Events =
      (evs.filter keepEvent).map
        (fun e => if (TrimSpace registry).length > 0 then withHost registry e else e) := by
    simp [getEvents, getEventsLoop_eq]
  have hblank : ∀ r : GoString, (∀ c ∈ r, IsSpace c = true) →
      (getEvents ⟨⟨evs⟩, none⟩ r).Events = evs.filter keepEvent := by
    intro r hr
    have hlen : ¬ (TrimSpace r).length > 0 := by
      rw [TrimSpace_length_pos_iff]
      rintro ⟨c, hc, hs⟩
      rw [hr c hc] at hs
      exact absurd hs (by decide)
    simp [getEvents, getEventsLoop_eq, hlen]
  refine ⟨?_, ?_, ?_⟩
  · intro hr e he
    have hlen : (TrimSpace registry).length > 0 := (TrimSpace_length_pos_iff registry).mpr hr
    rw [h1, List.mem_map] at he
    obtain ⟨e0, _, rfl⟩ := he
    simp [hlen, withHost]
  · intro hr
    refine ⟨hblank registry hr, ?_⟩
    intro e he
    rw [hblank registry hr] at he
    exact (List.mem_filter.mp he).1
  · intro e he
    rw [hblank [] (by simp)] at he
    exact (List.mem_filter.mp he).1

/-- C5, at concrete inputs: the override reg is applied, the override made of
one blank is not. -/
theorem getEvents_override_witness :
    (∀ e ∈ (getEvents ⟨⟨[mkEvent "push" "h" "app" "v1"]⟩, none⟩ "reg".toList).Events,
      e.Request.Host = "reg".toList) ∧
    (∀ e ∈ (getEvents ⟨⟨[mkEvent "push" "h" "app" "v1"]⟩, none⟩ " ".toList).Events,
      e ∈ [mkEvent "push" "h" "app" "v1"]) :=
  ⟨(getEvents_override [mkEvent "push" "h" "app" "v1"] "reg".toList).1 ⟨'r', by decide, by decide⟩,
   ((getEvents_override [mkEvent "push" "h" "app" "v1"] " ".toList).2.1 (by decide)).2⟩

/-- C6: when json.Unmarshal reports a type error after it has filled events
(here a pull event whose tag was a number), getEvents returns these events as
they are: the batch is not empty, not filtered, and the override is not applied. -/
theorem getEvents_type_error_returns_events :
    getEvents ⟨⟨[mkEvent "pull" "h" "app" ""]⟩, some .UnmarshalTypeError⟩ "reg".toList
      = ⟨[mkEvent "pull" "h" "app" ""]⟩ ∧
    (getEvents ⟨⟨[mkEvent "pull" "h" "app" ""]⟩, some .UnmarshalTypeError⟩ "reg".toList).Events
      ≠ [] := by
  decide

/-- C7: under the policy latest the update decision is true exactly when the
tag of the event is the string "latest", whatever the two versions are. -/
theorem latest_decision (tag : GoString) (pv v : Int × Int × Int) :
    (updateDecision "latest".toList tag pv v = true ↔ tag = "latest".toList) ∧
    (∀ pv1 v1 : Int × Int × Int,
      updateDecision "latest".toList tag pv1 v1 = updateDecision "latest".toList tag pv v) ∧
    updateDecision "latest".toList "latest".toList (0, 0, 0) (9, 9, 9) = true ∧
    updateDecision "latest".toList "9.9.9".toList (9, 9, 9) (1, 0, 0) = false := by
  refine ⟨?_, ?_, by decide, by decide⟩
  · rw [updateDecision_latest]; simp
  · intro pv1 v1; rw [updateDecision_latest, updateDecision_latest]

/-! ## `checkToUpdate` and `getImpactedDeployments` -/

theorem containerDecision_eq (event : Event) (policy : GoString) (c : Container)
    (pv v : Int × Int × Int) (hpv : getVersion event.Target.Tag = some pv)
    (hv : getVersion c.Image = some v) :
    containerDecision event policy c = updateDecision policy event.Target.Tag pv v := by
  simp [containerDecision, hpv, hv]

/-- The loop of `checkToUpdate` never panics, gives every container left to
visit the image of the event, and spawns one send per container whose
decision is true. -/
theorem checkToUpdateLoop_spec (event : Event) (d : Deployment) (policy : GoString)
    (pv : Int × Int × Int) (hpv : getVersion event.Target.Tag = some pv)
    (rest done : List Container) (toUpdate : List Deployment) :
    ∃ q, checkToUpdateLoop event d policy pv done rest toUpdate
        = some (done ++ rest.map (withEventImage event), q) ∧
      q.length = toUpdate.length + (rest.filter (containerDecision event policy)).length := by
  induction rest generalizing done toUpdate with
  | nil => exact ⟨toUpdate, by simp [checkToUpdateLoop]⟩
  | cons c rest ih =>
    have hv := getVersion_eq c.Image
    rw [checkToUpdateLoop, hv]
    simp only
    rw [← containerDecision_eq event policy c pv _ hpv hv]
    obtain ⟨q, hq, hlen⟩ := ih (done ++ [{ c with Image := newImage event }])
      (if containerDecision event policy c = true then
        toUpdate ++ [{ d with Containers := done ++ { c with Image := newImage event } :: rest }]
       else toUpdate)
    refine ⟨q, ?_, ?_⟩
    · rw [hq]
      simp [withEventImage, newImage]
    · rw [hlen, List.filter_cons]
      by_cases hc : containerDecision event policy c = true
      · simp [hc]; omega
      · simp [hc]

/-- What `checkToUpdate` does: no panic, every container of the deployment gets
the image of the event, one send is spawned per container whose decision is
true. -/
theorem checkToUpdate_spec (event : Event) (d : Deployment) (policy : GoString)
    (toUpdate : List Deployment) :
    ∃ q, checkToUpdate event d policy toUpdate
        = some ({ d with Containers := d.Containers.map (withEventImage event) }, q) ∧
      q.length = toUpdate.length + (d.Containers.filter (containerDecision event policy)).length := by
  have hpv := getVersion_eq event.Target.Tag
  obtain ⟨q, hq, hlen⟩ := checkToUpdateLoop_spec event d policy _ hpv d.Containers [] toUpdate
  refine ⟨q, ?_, hlen⟩
  rw [checkToUpdate, hpv]
  simp only
  rw [hq]
  simp

/-- The loop of `getImpactedDeployments` over the containers of a deployment
never panics and keeps the number of containers; a container that already has
the image of the event, or that is still to be visited and matches the event,
ends with the image of the event. -/
theorem containersLoop_spec (event : Event) (policy : GoString) (n idx : Nat)
    (i : Deployment) (toUpdate : List Deployment) (hn : idx + n = i.Containers.length) :
    ∃ i1 q, containersLoop event policy idx n i toUpdate = some (i1, q) ∧
      i1.Containers.length = i.Containers.length ∧
      ∀ k c, i.Containers[k]? = some c →
        (c.Image = (withEventImage event c).Image ∨
          (idx ≤ k ∧ versionregReplace c.Image = eimage event)) →
        ∃ c1, i1.Containers[k]? = some c1 ∧ c1.Image = (withEventImage event c).Image := by
  induction n generalizing idx i toUpdate with
  | zero =>
    refine ⟨i, toUpdate, rfl, rfl, ?_⟩
    intro k c hk hc
    rcases hc with hc | ⟨hle, _⟩
    · exact ⟨c, hk, hc⟩
    · have hlt : k < i.Containers.length := by
        by_contra hge
        rw [List.getElem?_eq_none (by omega)] at hk
        exact absurd hk (by simp)
      omega
  | succ n ih =>
    have hidx : idx < i.Containers.length := by omega
    rw [containersLoop, List.getElem?_eq_getElem hidx]
    simp only
    by_cases hm : versionregReplace (i.Containers[idx]).Image = eimage event
    · rw [if_pos hm]
      obtain ⟨q, hq, _⟩ := checkToUpdate_spec event i policy toUpdate
      rw [hq]
      simp only
      obtain ⟨i1, q1, h1, hlen1, hall1⟩ :=
        ih (idx + 1) { i with Containers := i.Containers.map (withEventImage event) } q
          (by simp; omega)
      refine ⟨i1, q1, h1, by simpa using hlen1, ?_⟩
      intro k c hk _
      have hk1 : ({ i with Containers := i.Containers.map (withEventImage event) } :
          Deployment).Containers[k]? = some (withEventImage event c) := by
        simp [hk]
      obtain ⟨c1, hc1, himg⟩ := hall1 k (withEventImage event c) hk1 (Or.inl rfl)
      exact ⟨c1, hc1, himg⟩
    · rw [if_neg hm]
      obtain ⟨i1, q1, h1, hlen1, hall1⟩ := ih (idx + 1) i toUpdate (by omega)
      refine ⟨i1, q1, h1, hlen1, ?_⟩
      intro k c hk hc
      apply hall1 k c hk
      rcases hc with hc | ⟨hle, hmatch⟩
      · exact Or.inl hc
      · right
        refine ⟨?_, hmatch⟩
        rcases Nat.eq_or_lt_of_le hle with heq | hlt
        · subst heq
          rw [List.getElem?_eq_getElem hidx] at hk
          simp only [Option.some.injEq] at hk
          rw [hk] at hm
          exact absurd hmatch hm
        · exact hlt

/-- C8: on a workload labelled all with the containers reg/app:1.0.0 and
nginx:1.0, of which one qualifies for the push of reg/app:1.1.0, four sends are
spawned on toUpdate: checkToUpdate runs over all the containers, and runs again
for the second container once the first run has given it the image of the
event. -/
theorem enqueued_more_than_qualifying :
    (qualifying (mkEvent "push" "reg" "app" "1.1.0") "all".toList
      (mkDeployment "all" ["reg/app:1.0.0", "nginx:1.0"])).length = 1 ∧
    (getImpactedDeployments [[mkDeployment "all" ["reg/app:1.0.0", "nginx:1.0"]]]
      (mkEvent "push" "reg" "app" "1.1.0") []).map (fun r => (r.1, r.2.length))
      = some ([[mkDeployment "all" ["reg/app:1.1.0", "reg/app:1.1.0"]]], 4) := by
  decide

/-- C9: checkToUpdate gives every container of the deployment the image
host/repository:tag of the event, whatever the policy and the decisions, and
spawns one send per container whose decision is true; and after
getImpactedDeployments has processed a labelled workload, every container whose
image without its tag was host/repository has that image. -/
theorem matching_containers_rewritten (event : Event) (i : Deployment) (policy : GoString)
    (toUpdate : List Deployment) (hlabel : i.Labels.lookup argoosLabel = some policy) :
    (∃ q, checkToUpdate event i policy toUpdate
        = some ({ i with Containers := i.Containers.map (withEventImage event) }, q) ∧
      q.length = toUpdate.length +
        (i.Containers.filter (containerDecision event policy)).length) ∧
    (∃ i1 q, impactedDeployment event i toUpdate = some (i1, q) ∧
      i1.Containers.length = i.Containers.length ∧
      ∀ (k : Nat) (c : Container), i.Containers[k]? = some c →
        versionregReplace c.Image = event.Request.Host ++ "/".toList ++ event.Target.Repository →
        ∃ c1 : Container, i1.Containers[k]? = some c1 ∧
          c1.Image = event.Request.Host ++ "/".toList ++ event.Target.Repository ++
            ":".toList ++ event.Target.Tag) := by
  refine ⟨checkToUpdate_spec event i policy toUpdate, ?_⟩
  obtain ⟨i1, q, h1, hlen, hall⟩ :=
    containersLoop_spec event policy i.Containers.length 0 i toUpdate (by simp)
  refine ⟨i1, q, ?_, hlen, ?_⟩
  · rw [impactedDeployment, hlabel]
    exact h1
  · intro k c hk hm
    exact hall k c hk (Or.inr ⟨Nat.zero_le k, hm⟩)

/-- C9, at a concrete input: a workload labelled patch with the container
reg/app:1.0.0 and the push of reg/app:1.1.0. -/
theorem matching_containers_rewritten_witness :
    ∃ i1 q, impactedDeployment (mkEvent "push" "reg" "app" "1.1.0")
        (mkDeployment "patch" ["reg/app:1.0.0"]) [] = some (i1, q) ∧
      i1.Containers.length = 1 ∧
      ∀ (k : Nat) (c : Container), (mkDeployment "patch" ["reg/app:1.0.0"]).Containers[k]? = some c →
        versionregReplace c.Image = "reg/app".toList →
        ∃ c1 : Container, i1.Containers[k]? = some c1 ∧ c1.Image = "reg/app:1.1.0".toList :=
  (matching_containers_rewritten (mkEvent "push" "reg" "app" "1.1.0")
    (mkDeployment "patch" ["reg/app:1.0.0"]) "patch".toList [] (by decide)).2

/-! ## Image matching -/

theorem versionregReplace_no_colon (s : GoString) (hs : ':' ∉ s) : versionregReplace s = s := by
  induction s with
  | nil => rfl
  | cons c cs ih =>
    simp only [List.mem_cons, not_or] at hs
    have hc : c ≠ ':' := fun h => hs.1 h.symm
    rw [versionregReplace, if_neg (fun h => hc h.1), ih hs.2]

theorem versionregReplace_append (base tag : GoString) (htag : ':' ∉ tag) :
    versionregReplace (base ++ ':' :: tag) = base := by
  induction base with
  | nil =>
    have hall : tag.all (fun x => decide (x ≠ ':')) = true := by
      rw [List.all_eq_true]
      intro x hx
      simp only [decide_eq_true_eq]
      intro h
      exact htag (h ▸ hx)
    show versionregReplace (':' :: tag) = []
    rw [versionregReplace, if_pos ⟨rfl, hall⟩]
  | cons b bs ih =>
    have hall : ¬ ((bs ++ ':' :: tag).all (fun x => decide (x ≠ ':')) = true) := by
      rw [List.all_eq_true]
      intro h
      have := h ':' (by simp)
      simp at this
    show versionregReplace (b :: (bs ++ ':' :: tag)) = b :: bs
    rw [versionregReplace, if_neg (fun h => hall h.2), ih]

/-- C10: the image is compared with its last ':'-segment removed: stripping
base:tag gives base when tag has no ':', a string without ':' is left as it
is, so registry.example.com/app:1.0.0 matches the event for
registry.example.com/app and registry.example.com/app2:1.0.0 does not. -/
theorem image_matching (base tag s : GoString) (htag : ':' ∉ tag) (hs : ':' ∉ s) :
    versionregReplace (base ++ ":".toList ++ tag) = base ∧
    versionregReplace s = s ∧
    versionregReplace "registry.example.com/app:1.0.0".toList
      = eimage (mkEvent "push" "registry.example.com" "app" "1.0.1") ∧
    versionregReplace "registry.example.com/app2:1.0.0".toList
      ≠ eimage (mkEvent "push" "registry.example.com" "app" "1.0.1") := by
  refine ⟨?_, versionregReplace_no_colon s hs, by decide, by decide⟩
  have : base ++ ":".toList ++ tag = base ++ ':' :: tag := by simp
  rw [this]
  exact versionregReplace_append base tag htag

/-- C10, at concrete inputs: a registry with a port, and an image without tag. -/
theorem image_matching_witness :
    versionregReplace ("localhost:5000/app".toList ++ ":".toList ++ "1.0.0".toList)
      = "localhost:5000/app".toList ∧
    versionregReplace "nginx".toList = "nginx".toList :=
  ⟨(image_matching "localhost:5000/app".toList "1.0.0".toList "nginx".toList
      (by decide) (by decide)).1,
   (image_matching "localhost:5000/app".toList "1.0.0".toList "nginx".toList
      (by decide) (by decide)).2.1⟩

/-! ## Unlabelled workloads and unknown policies -/

/-- C11: a workload without the label argoos.io/policy is skipped by
getImpactedDeployments: it is left as it is and nothing is added to toUpdate,
alone or in front of any list of workloads, also when one of its images
matches the event. -/
theorem unlabelled_workload_skipped (event : Event) (i : Deployment)
    (toUpdate : List Deployment) (hlabel : i.Labels.lookup argoosLabel = none) :
    impactedDeployment event i toUpdate = some (i, toUpdate) ∧
    getImpactedDeployments [[i]] event toUpdate = some ([[i]], toUpdate) ∧
    (∀ items : List Deployment, impactedItems event (i :: items) toUpdate =
      (impactedItems event items toUpdate).map (fun r => (i :: r.1, r.2))) ∧
    getImpactedDeployments
        [[{ mkDeployment "all" ["reg/app:1.0.0"] with Labels := [] }]]
        (mkEvent "push" "reg" "app" "1.1.0") []
      = some ([[{ mkDeployment "all" ["reg/app:1.0.0"] with Labels := [] }]], []) := by
  have h1 : impactedDeployment event i toUpdate = some (i, toUpdate) := by
    rw [impactedDeployment, hlabel]
  refine ⟨h1, ?_, ?_, by decide⟩
  · simp [getImpactedDeployments, impactedItems, h1]
  · intro items
    rw [impactedItems, h1]
    simp only
    cases impactedItems event items toUpdate with
    | none => rfl
    | some r => rfl

/-- C11, at a concrete input: a workload without labels whose image matches the
event. -/
theorem unlabelled_workload_skipped_witness :
    impactedDeployment (mkEvent "push" "reg" "app" "1.1.0")
        { mkDeployment "all" ["reg/app:1.0.0"] with Labels := [] } []
      = some ({ mkDeployment "all" ["reg/app:1.0.0"] with Labels := [] }, []) :=
  (unlabelled_workload_skipped (mkEvent "push" "reg" "app" "1.1.0")
    { mkDeployment "all" ["reg/app:1.0.0"] with Labels := [] } [] (by decide)).1

theorem updateDecision_unknown (policy tag : GoString) (pv v : Int × Int × Int)
    (hp : policy ∉ knownPolicies) : updateDecision policy tag pv v = false := by
  simp only [knownPolicies, List.mem_cons, List.mem_singleton, not_or, List.not_mem_nil,
    not_false_eq_true, and_true, or_false] at hp
  obtain ⟨h1, h2, h3, h4, h5⟩ := hp
  simp only [updateDecision, if_neg h1, if_neg h2, if_neg h3, if_neg h4, if_neg h5]

/-- When no container has a true decision the loop of `checkToUpdate` leaves
`toUpdate` as it is. -/
theorem checkToUpdateLoop_no_send (event : Event) (d : Deployment) (policy : GoString)
    (pv : Int × Int × Int) (hpv : getVersion event.Target.Tag = some pv)
    (hdec : ∀ c, containerDecision event policy c = false)
    (rest done : List Container) (toUpdate : List Deployment) :
    checkToUpdateLoop event d policy pv done rest toUpdate
      = some (done ++ rest.map (withEventImage event), toUpdate) := by
  induction rest generalizing done with
  | nil => simp [checkToUpdateLoop]
  | cons c rest ih =>
    have hv := getVersion_eq c.Image
    rw [checkToUpdateLoop, hv]
    simp only
    rw [← containerDecision_eq event policy c pv _ hpv hv, hdec c]
    simp only [Bool.false_eq_true, if_false]
    rw [ih]
    simp [withEventImage, newImage]

theorem checkToUpdate_no_send (event : Event) (d : Deployment) (policy : GoString)
    (hdec : ∀ c, containerDecision event policy c = false) (toUpdate : List Deployment) :
    checkToUpdate event d policy toUpdate
      = some ({ d with Containers := d.Containers.map (withEventImage event) }, toUpdate) := by
  have hpv := getVersion_eq event.Target.Tag
  rw [checkToUpdate, hpv]
  simp only
  rw [checkToUpdateLoop_no_send event d policy _ hpv hdec]
  simp

theorem containersLoop_no_send (event : Event) (policy : GoString)
    (hdec : ∀ c, containerDecision event policy c = false) (n idx : Nat)
    (i : Deployment) (toUpdate : List Deployment) (hn : idx + n = i.Containers.length) :
    ∃ i1, containersLoop event policy idx n i toUpdate = some (i1, toUpdate) := by
  induction n generalizing idx i with
  | zero => exact ⟨i, rfl⟩
  | succ n ih =>
    have hidx : idx < i.Containers.length := by omega
    rw [containersLoop, List.getElem?_eq_getElem hidx]
    simp only
    by_cases hm : versionregReplace (i.Containers[idx]).Image = eimage event
    · rw [if_pos hm, checkToUpdate_no_send event i policy hdec]
      simp only
      exact ih (idx + 1) _ (by simp; omega)
    · rw [if_neg hm]
      exact ih (idx + 1) i (by omega)

/-- C12: for a policy value that is none of latest, all, major, minor, patch
(the empty string is one such value) the update decision is false for every
event and every image, and processing a workload labelled with it adds nothing
to toUpdate; for the policy all the decision is always true. -/
theorem unknown_policy_never_enqueued (event : Event) (i : Deployment) (policy : GoString)
    (toUpdate : List Deployment) (hp : policy ∉ knownPolicies)
    (hlabel : i.Labels.lookup argoosLabel = some policy) :
    (∀ (tag : GoString) (pv v : Int × Int × Int), updateDecision policy tag pv v = false) ∧
    (∀ c : Container, containerDecision event policy c = false) ∧
    (∃ i1, impactedDeployment event i toUpdate = some (i1, toUpdate)) ∧
    (∃ d1, checkToUpdate event i policy toUpdate = some (d1, toUpdate)) ∧
    ([] : GoString) ∉ knownPolicies ∧
    (∀ (tag : GoString) (pv v : Int × Int × Int),
      updateDecision "all".toList tag pv v = true) ∧
    (∀ c : Container, containerDecision event "all".toList c = true) := by
  have hdec : ∀ c : Container, containerDecision event policy c = false := by
    intro c
    rw [containerDecision_eq event policy c _ _ (getVersion_eq _) (getVersion_eq _)]
    exact updateDecision_unknown policy _ _ _ hp
  refine ⟨fun tag pv v => updateDecision_unknown policy tag pv v hp, hdec, ?_, ?_, by decide,
    updateDecision_all, ?_⟩
  · rw [impactedDeployment, hlabel]
    exact containersLoop_no_send event policy hdec i.Containers.length 0 i toUpdate (by simp)
  · exact ⟨_, checkToUpdate_no_send event i policy hdec toUpdate⟩
  · intro c
    rw [containerDecision_eq event _ c _ _ (getVersion_eq _) (getVersion_eq _)]
    exact updateDecision_all _ _ _

/-- C12, at a concrete input: a workload labelled with the empty policy whose
image matches the event. -/
theorem unknown_policy_never_enqueued_witness :
    ∃ i1, impactedDeployment (mkEvent "push" "reg" "app" "1.1.0")
        (mkDeployment "" ["reg/app:1.0.0"]) [] = some (i1, []) :=
  (unknown_policy_never_enqueued (mkEvent "push" "reg" "app" "1.1.0")
    (mkDeployment "" ["reg/app:1.0.0"]) [] [] (by decide) (by decide)).2.2.1

/-! ## Range and totality of `getVersion` -/

/-- The value of `Atoi` lies in the range of the 64-bit `int`. -/
theorem Atoi_bounds (c : GoString) : -2 ^ 63 ≤ (Atoi c).1 ∧ (Atoi c).1 ≤ 2 ^ 63 - 1 := by
  cases c with
  | nil => simp [Atoi, ParseInt]
  | cons x xs =>
    have hmax : maxUint64 > 2 ^ 63 := by simp [maxUint64]
    rcases ParseUint_cases (if x = '+' ∨ x = '-' then xs else x :: xs) with ⟨n, hn⟩ | hn | hn
    · rw [Atoi, ParseInt_of_value x xs n none hn (by simp)]
      split_ifs <;> simp only <;> omega
    · rw [Atoi, ParseInt_of_syntax_error x xs hn]
      simp
    · rw [Atoi, ParseInt_of_value x xs _ _ hn (by simp)]
      split_ifs <;> simp only <;> omega

/-- The value of `Atoi` is not negative on a string that does not start with
a minus sign. -/
theorem Atoi_nonneg (c : GoString) (hc : c.head? ≠ some '-') : 0 ≤ (Atoi c).1 := by
  cases c with
  | nil => simp [Atoi, ParseInt]
  | cons x xs =>
    have hx : ¬ x = '-' := by
      intro h
      apply hc
      simp [h]
    rcases ParseUint_cases (if x = '+' ∨ x = '-' then xs else x :: xs) with ⟨n, hn⟩ | hn | hn
    · rw [Atoi, ParseInt_of_value x xs n none hn (by simp), if_neg hx]
      split_ifs <;> simp only <;> omega
    · rw [Atoi, ParseInt_of_syntax_error x xs hn]
    · rw [Atoi, ParseInt_of_value x xs _ _ hn (by simp), if_neg hx]
      split_ifs <;> simp only <;> omega

/-- C13 (as stated) fails: the tag 1.-2.3 has a negative minor component. -/
theorem getVersion_negative_component :
    getVersion "1.-2.3".toList = some (1, -2, 3) ∧
    ∃ x y z : Int, getVersion "1.-2.3".toList = some (x, y, z) ∧ y < 0 := by
  refine ⟨by decide, 1, -2, 3, by decide, by decide⟩

/-- C13 (as amended): every component returned by getVersion lies in the range
of the 64-bit int, and a component is non-negative when the corresponding
component of the string does not start with a minus sign. -/
theorem getVersion_range (s : GoString) :
    ∃ x y z : Int, getVersion s = some (x, y, z) ∧
      (-2 ^ 63 ≤ x ∧ x ≤ 2 ^ 63 - 1) ∧ (-2 ^ 63 ≤ y ∧ y ≤ 2 ^ 63 - 1) ∧
      (-2 ^ 63 ≤ z ∧ z ≤ 2 ^ 63 - 1) ∧
      ((component s 0).head? ≠ some '-' → 0 ≤ x) ∧
      ((component s 1).head? ≠ some '-' → 0 ≤ y) ∧
      ((component s 2).head? ≠ some '-' → 0 ≤ z) :=
  ⟨_, _, _, getVersion_eq s, Atoi_bounds _, Atoi_bounds _, Atoi_bounds _,
    Atoi_nonneg _, Atoi_nonneg _, Atoi_nonneg _⟩

/-- C13, at a concrete input: the components of 1.2 are not negative. -/
theorem getVersion_range_witness :
    ∃ x y z : Int, getVersion "1.2".toList = some (x, y, z) ∧ 0 ≤ x ∧ 0 ≤ y ∧ 0 ≤ z := by
  obtain ⟨x, y, z, h, _, _, _, hx, hy, hz⟩ := getVersion_range "1.2".toList
  exact ⟨x, y, z, h, hx (by decide), hy (by decide), hz (by decide)⟩

theorem padVersion_length (v : List GoString) : 3 ≤ (padVersion v).length := by
  rcases v with _ | ⟨a, _ | ⟨b, _ | ⟨c, rest⟩⟩⟩ <;> simp [padVersion]

/-- C14: getVersion is total: the slice of parsed components has at least three
elements for every string, so the three accesses are in range and a triple is
returned; so it is for the empty string, a string without dots, non-numeric
components and more than three components. -/
theorem getVersion_total (s : GoString) :
    3 ≤ (versionSlice s).length ∧
    (∃ x y z : Int, getVersion s = some (x, y, z)) ∧
    (getVersion s).isSome = true ∧
    (∃ x y z : Int, (versionSlice s)[0]? = some x ∧ (versionSlice s)[1]? = some y ∧
      (versionSlice s)[2]? = some z ∧ getVersion s = some (x, y, z)) ∧
    getVersion [] = some (0, 0, 0) ∧
    getVersion "7".toList = some (7, 0, 0) ∧
    getVersion "a.b.c".toList = some (0, 0, 0) ∧
    getVersion "1.x".toList = some (1, 0, 0) ∧
    getVersion "1.2.3.4.5".toList = some (1, 2, 3) := by
  have hlen : 3 ≤ (versionSlice s).length := by
    simp only [versionSlice, List.length_map]
    exact padVersion_length _
  refine ⟨hlen, ⟨_, _, _, getVersion_eq s⟩, by rw [getVersion_eq]; rfl, ?_,
    by decide, by decide, by decide, by decide, by decide⟩
  refine ⟨(versionSlice s)[0], (versionSlice s)[1], (versionSlice s)[2],
    List.getElem?_eq_getElem _, List.getElem?_eq_getElem _, List.getElem?_eq_getElem _, ?_⟩
  simp only [getVersion, List.getElem?_eq_getElem (show 0 < (versionSlice s).length by omega),
    List.getElem?_eq_getElem (show 1 < (versionSlice s).length by omega),
    List.getElem?_eq_getElem (show 2 < (versionSlice s).length by omega)]

/-! ## `StartRollout` and `StopRollout` -/

/-- From a state whose flag is false, a sequence of calls leaves the flag
false, sends nothing on `stopRollout`, stops no worker, and starts one worker
per call of `StartRollout`. -/
theorem runCalls_flag_false (calls : List RolloutCall) (s : RolloutState)
    (hs : s.rolloutStarted = false) :
    (runCalls calls s).rolloutStarted = false ∧
    (runCalls calls s).stopSent = s.stopSent ∧
    (runCalls calls s).stopped = s.stopped ∧
    (runCalls calls s).workers = s.workers + calls.count .StartRollout := by
  induction calls generalizing s with
  | nil => simp [runCalls, hs]
  | cons call calls ih =>
    cases call with
    | StartRollout =>
      obtain ⟨h1, h2, h3, h4⟩ := ih (StartRollout s) (by simp [StartRollout, hs])
      rw [runCalls]
      refine ⟨h1, h2, h3, ?_⟩
      rw [h4]
      simp [StartRollout]
      omega
    | StopRollout =>
      have hstop : StopRollout s = s := by
        cases s
        simp_all [StopRollout]
      obtain ⟨h1, h2, h3, h4⟩ := ih (StopRollout s) (by rw [hstop]; exact hs)
      rw [runCalls]
      rw [hstop] at h1 h2 h3 h4 ⊢
      refine ⟨h1, h2, h3, ?_⟩
      rw [h4]
      simp

/-- C15: in every state reached from the initial state by calls of StartRollout
and StopRollout the flag rolloutStarted is false; so no call of StopRollout
sends on stopRollout (the call leaves the state as it is), and no worker takes
its stop branch: every worker started is still running. -/
theorem rolloutStarted_never_true (calls : List RolloutCall) :
    (runCalls calls RolloutState.init).rolloutStarted = false ∧
    (runCalls calls RolloutState.init).stopSent = 0 ∧
    (runCalls calls RolloutState.init).stopped = 0 ∧
    (runCalls calls RolloutState.init).workers = calls.count .StartRollout ∧
    StopRollout (runCalls calls RolloutState.init) = runCalls calls RolloutState.init ∧
    runCalls [.StartRollout, .StopRollout, .StartRollout, .StopRollout] RolloutState.init
      = { rolloutStarted := false, workers := 2, stopSent := 0, stopped := 0 } := by
  obtain ⟨h1, h2, h3, h4⟩ := runCalls_flag_false calls RolloutState.init rfl
  refine ⟨h1, h2, h3, ?_, ?_, by decide⟩
  · rw [h4]; simp [RolloutState.init]
  · generalize runCalls calls RolloutState.init = s at h1
    cases s
    simp_all [StopRollout]

/-! ## The lexicographic order on versions -/

/-- C18: the decision for the policy major is true exactly when the event
version is strictly above the current version in the lexicographic order on
(major, minor, patch); it is false for equal versions and for a downgrade; a
true decision for patch gives one for minor, and one for minor gives one for
major. -/
theorem major_decision_lexicographic (tag : GoString) (e c : Int × Int × Int) :
    (updateDecision "major".toList tag e c = true ↔ versionLt c e) ∧
    updateDecision "major".toList tag c c = false ∧
    (versionLt e c → updateDecision "major".toList tag e c = false) ∧
    (updateDecision "patch".toList tag e c = true →
      updateDecision "minor".toList tag e c = true) ∧
    (updateDecision "minor".toList tag e c = true →
      updateDecision "major".toList tag e c = true) := by
  obtain ⟨eM, em, ep⟩ := e
  obtain ⟨cM, cm, cp⟩ := c
  simp only [updateDecision_patch, updateDecision_minor, updateDecision_major, versionLt,
    Prod.Lex.lt_iff]
  simp only [Bool.or_eq_true, Bool.and_eq_true, decide_eq_true_eq, Bool.or_eq_false_iff,
    Bool.and_eq_false_iff, decide_eq_false_iff_not]
  refine ⟨?_, ?_, ?_, ?_, ?_⟩
  · constructor
    · rintro ((h | ⟨h1, h2⟩) | ⟨⟨h1, h2⟩, h3⟩)
      · left; omega
      · right; exact ⟨h1.symm, Or.inl (by omega)⟩
      · right; exact ⟨h1.symm, Or.inr ⟨h2.symm, by omega⟩⟩
    · rintro (h | ⟨h1, h2 | ⟨h2, h3⟩⟩)
      · left; left; omega
      · left; right; exact ⟨h1.symm, by omega⟩
      · right; exact ⟨⟨h1.symm, h2.symm⟩, by omega⟩
  · omega
  · rintro (h | ⟨h1, h2 | ⟨h2, h3⟩⟩) <;> omega
  · intro h; right; exact h
  · rintro (h | h)
    · left; right; exact h
    · right; exact h

/-! ## The rollout worker -/

/-- The loop of `rollout` over deployments only: every one gets its call of
`Update`, the failed calls are logged, and the worker does not return. -/
theorem rollout_updates (failed : Nat → Bool) (us : List Deployment) (rest : List Received)
    (w : Worker) :
    rollout failed (us.map Received.update ++ rest) w =
      rollout failed rest
        { w with
          updates := w.updates ++ us
          logged := w.logged ++
            ((List.range us.length).map (fun k => w.updates.length + k)).filter failed } := by
  induction us generalizing w with
  | nil => simp
  | cons u us ih =>
    show rollout failed (Received.update u :: (us.map Received.update ++ rest)) w = _
    rw [rollout, ih]
    congr 1
    have hr : List.range (us.length + 1) = 0 :: (List.range us.length).map Nat.succ := by
      rw [List.range_succ_eq_map]
    have hm : List.map ((fun k => w.updates.length + k) ∘ Nat.succ) (List.range us.length)
        = List.map (fun k => w.updates.length + 1 + k) (List.range us.length) := by
      apply List.map_congr_left
      intro k _
      simp only [Function.comp_apply, Nat.succ_eq_add_one]
      omega
    by_cases hf : failed w.updates.length = true
    · simp [hf, hr, List.filter_cons, hm]
    · simp [hf, hr, List.filter_cons, hm]

/-- C19: over any sequence of deployments received on toUpdate and any pattern
of failures of the orchestrator, the worker issues exactly one call of Update
per deployment received, in the order received, logs the failed ones, does not
return, and goes on with what it receives next as a worker that met no failure
would. -/
theorem rollout_one_update_per_item (failed : Nat → Bool) (us : List Deployment) :
    (rollout failed (us.map Received.update) Worker.init).updates = us ∧
    (rollout failed (us.map Received.update) Worker.init).updates.length = us.length ∧
    (rollout failed (us.map Received.update) Worker.init).returned = false ∧
    (rollout failed (us.map Received.update) Worker.init).logged
      = (List.range us.length).filter failed ∧
    (∀ failed2 : Nat → Bool,
      (rollout failed2 (us.map Received.update) Worker.init).updates
        = (rollout failed (us.map Received.update) Worker.init).updates) ∧
    (∀ more : List Deployment,
      (rollout failed ((us ++ more).map Received.update) Worker.init).updates = us ++ more ∧
      (rollout failed ((us ++ more).map Received.update) Worker.init).returned = false) ∧
    (rollout (fun _ => true)
        [.update (mkDeployment "all" ["a:1"]), .update (mkDeployment "all" ["b:1"])]
        Worker.init)
      = { returned := false,
          updates := [mkDeployment "all" ["a:1"], mkDeployment "all" ["b:1"]],
          logged := [0, 1] } := by
  have key : ∀ (f : Nat → Bool) (l : List Deployment),
      rollout f (l.map Received.update) Worker.init =
        { returned := false, updates := l, logged := (List.range l.length).filter f } := by
    intro f l
    have h := rollout_updates f l [] Worker.init
    simp only [List.append_nil] at h
    rw [h]
    simp [rollout, Worker.init]
  refine ⟨?_, ?_, ?_, ?_, ?_, ?_, by decide⟩
  · rw [key]
  · rw [key]
  · rw [key]
  · rw [key]
  · intro failed2; rw [key, key]
  · intro more; rw [key]; exact ⟨rfl, rfl⟩

/-! ## Containers that do not match the event -/

/-- C16: in a workload labelled all with the containers reg/app:1.0.0 and
nginx:1.0, the second container does not match the push of reg/app:1.1.0, yet
checkToUpdate evaluates its decision (two sends for one matching container)
and rewrites its image: in memory the workload ends with reg/app:1.1.0 in both
containers. So it is under the policy patch, where no send is spawned. -/
theorem unmatched_container_rewritten :
    versionregReplace "nginx:1.0".toList ≠ eimage (mkEvent "push" "reg" "app" "1.1.0") ∧
    versionregReplace "reg/app:1.0.0".toList = eimage (mkEvent "push" "reg" "app" "1.1.0") ∧
    containerDecision (mkEvent "push" "reg" "app" "1.1.0") "all".toList
      { Name := "c".toList, Image := "nginx:1.0".toList } = true ∧
    (checkToUpdate (mkEvent "push" "reg" "app" "1.1.0")
      (mkDeployment "all" ["reg/app:1.0.0", "nginx:1.0"]) "all".toList []).map
        (fun r => (r.1, r.2.length))
      = some (mkDeployment "all" ["reg/app:1.1.0", "reg/app:1.1.0"], 2) ∧
    (getImpactedDeployments [[mkDeployment "all" ["reg/app:1.0.0", "nginx:1.0"]]]
      (mkEvent "push" "reg" "app" "1.1.0") []).map (fun r => r.1)
      = some [[mkDeployment "all" ["reg/app:1.1.0", "reg/app:1.1.0"]]] ∧
    getImpactedDeployments [[mkDeployment "patch" ["reg/app:1.0.0", "nginx:1.0"]]]
      (mkEvent "push" "reg" "app" "1.1.0") []
      = some ([[mkDeployment "patch" ["reg/app:1.1.0", "reg/app:1.1.0"]]], []) := by
  decide

/-! ## The current version of a container -/

/-- C17: the current version checkToUpdate computes for the image reg/app:1.2.3
is (0,2,3), the version of the whole image string, and not (1,2,3), the version
of its tag; so under the policy major the push of the older tag 1.0.0 gets a
true decision. -/
theorem current_version_from_whole_image :
    getVersion "reg/app:1.2.3".toList = some (0, 2, 3) ∧
    getVersion "1.2.3".toList = some (1, 2, 3) ∧
    containerDecision (mkEvent "push" "reg" "app" "1.0.0") "major".toList
      { Name := "c".toList, Image := "reg/app:1.2.3".toList } = true ∧
    updateDecision "major".toList "1.0.0".toList (1, 0, 0) (1, 2, 3) = false ∧
    (getImpactedDeployments [[mkDeployment "major" ["reg/app:1.2.3"]]]
      (mkEvent "push" "reg" "app" "1.0.0") []).map (fun r => r.2.length) = some 1 := by
  decide

end Argoos
